import Mathlib

/-!
Verification of the diamond-square heightfield generator.

The repository ships a driver (`src/main.cpp`) that seeds the four corners of
a 513 x 513 grid of `uint8_t` samples and invokes the core engine
`heightfield::diamond_square_no_wrap`, injecting a random source, a variance
schedule and a grid accessor.  The engine header itself is not part of the
sources available here, so the engine is modelled from the specification
document; the driver callbacks are translated from `main.cpp` directly.

Real-valued quantities (height samples, random samples, variance bounds) are
modelled exactly by rational numbers.  The engine state carries, besides the
grid contents and the count of random samples drawn so far, a log of every
position the engine read and every position it wrote through the accessor, so
that access-bounds and frame properties can be stated.
-/

/-- State of one engine run: the grid contents (a total function from
coordinates to samples), the number of random samples drawn so far, and logs
of every position read and written through the accessor. -/
structure DSState where
  grid : ℕ × ℕ → ℚ
  ctr : ℕ
  rds : List (ℕ × ℕ)
  wrs : List (ℕ × ℕ)

/-- Modelled from the spec: the four diagonal neighbour positions, at
distance `s`, read by the square pass (diamond centres) for the point `p`.
For square-pass points these are always in bounds. -/
def sqNbrs (s : ℕ) (p : ℕ × ℕ) : List (ℕ × ℕ) :=
  [(p.1 - s, p.2 - s), (p.1 + s, p.2 - s), (p.1 - s, p.2 + s), (p.1 + s, p.2 + s)]

/-- Modelled from the spec: the in-bounds axis neighbours, at distance `s`,
read by the diamond pass (edge midpoints) for the point `p` — the left, right,
up and down neighbours, omitting any position falling outside `[0, size)`;
nothing is wrapped or substituted. -/
def diNbrs (size s : ℕ) (p : ℕ × ℕ) : List (ℕ × ℕ) :=
  (if s ≤ p.1 then [(p.1 - s, p.2)] else []) ++
  (if p.1 + s < size then [(p.1 + s, p.2)] else []) ++
  (if s ≤ p.2 then [(p.1, p.2 - s)] else []) ++
  (if p.2 + s < size then [(p.1, p.2 + s)] else [])

/-- Modelled from the spec: the points written by the square pass at step `s`
on a grid with edge length `edge` — the points whose coordinates are both odd
multiples of `s`, the centres of the current coarse cells. -/
def squarePoints (s edge : ℕ) : List (ℕ × ℕ) :=
  (List.range (edge / (2 * s))).flatMap fun j =>
    (List.range (edge / (2 * s))).map fun i => (s * (2 * i + 1), s * (2 * j + 1))

/-- Modelled from the spec: the points written by the diamond pass at step `s`
— the points whose coordinates are multiples of `s` whose index sum is odd,
the midpoints between adjacent known points, boundary midpoints included. -/
def diamondPoints (s edge : ℕ) : List (ℕ × ℕ) :=
  (List.range (edge / s + 1)).flatMap fun j =>
    (List.range (edge / s + 1)).filterMap fun i =>
      if (i + j) % 2 = 1 then some (s * i, s * j) else none

/-- Modelled from the spec: computing and storing one point.  The value is
the arithmetic mean of the neighbour samples plus the perturbation
`random(v) - v / 2`; the neighbour positions are logged as reads and the
point as a write, and one random sample is consumed. -/
def passStep (rnd : ℕ → ℚ → ℚ) (v : ℚ) (nbrs : ℕ × ℕ → List (ℕ × ℕ))
    (st : DSState) (p : ℕ × ℕ) : DSState :=
  { grid := fun q =>
      if q = p then
        ((nbrs p).map st.grid).sum / ((nbrs p).length : ℚ) + (rnd st.ctr v - v / 2)
      else st.grid q
    ctr := st.ctr + 1
    rds := st.rds ++ nbrs p
    wrs := st.wrs ++ [p] }

/-- Modelled from the spec: one whole pass, visiting each point of `ps` in
turn. -/
def runPass (rnd : ℕ → ℚ → ℚ) (v : ℚ) (nbrs : ℕ × ℕ → List (ℕ × ℕ))
    (ps : List (ℕ × ℕ)) (st : DSState) : DSState :=
  ps.foldl (passStep rnd v nbrs) st

/-- Modelled from the spec: one subdivision level — the square pass followed
by the diamond pass, both using the variance bound of the current level. -/
def doLevel (size : ℕ) (rnd : ℕ → ℚ → ℚ) (variance : ℕ → ℚ) (s L : ℕ)
    (st : DSState) : DSState :=
  runPass rnd (variance L) (diNbrs size s) (diamondPoints s (size - 1))
    (runPass rnd (variance L) (sqNbrs s) (squarePoints s (size - 1)) st)

/-- Modelled from the spec: the main loop of the engine.  While `s ≥ 1`, run
the two passes of the current level, then halve `s` and increment the level
counter. -/
def dsLoop (size : ℕ) (rnd : ℕ → ℚ → ℚ) (variance : ℕ → ℚ) (s L : ℕ)
    (st : DSState) : DSState :=
  if h : s = 0 then st
  else dsLoop size rnd variance (s / 2) (L + 1) (doLevel size rnd variance s L st)
termination_by s
decreasing_by exact Nat.div_lt_self (Nat.pos_of_ne_zero h) one_lt_two

/-- Modelled from the spec: the engine `heightfield::diamond_square_no_wrap`,
whose header is not among the available sources.  The caller has already
seeded the grid `g0` (at least at the four corners); the engine starts with
step size `(size - 1) / 2` and level `0`. -/
def diamond_square_no_wrap (size : ℕ) (rnd : ℕ → ℚ → ℚ) (variance : ℕ → ℚ)
    (g0 : ℕ × ℕ → ℚ) : DSState :=
  dsLoop size rnd variance ((size - 1) / 2) 0 ⟨g0, 0, [], []⟩

/-- The list of (step size, level) pairs the main loop visits when started at
step `s` and level `L`. -/
def levelPairs (s L : ℕ) : List (ℕ × ℕ) :=
  if h : s = 0 then [] else (s, L) :: levelPairs (s / 2) (L + 1)
termination_by s
decreasing_by exact Nat.div_lt_self (Nat.pos_of_ne_zero h) one_lt_two

/-- The random callback injected by `main.cpp`: a uniform sample `u` drawn
from `[0, 1)` is scaled by the requested range.  Real arithmetic is modelled
exactly on the rationals. -/
def mainRandom (u range : ℚ) : ℚ := u * range

/-- The variance callback injected by `main.cpp`: `64 * 0.5 ^ level`. -/
def mainVariance (level : ℕ) : ℚ := 64 * (1 / 2) ^ level

/-- Storing an integer value into one of the `uint8_t` cells of the map in
`main.cpp`: unsigned narrowing reduces the value modulo `2 ^ 8`. -/
def storeByte (v : ℤ) : ℕ := (v % 256).toNat

/-- The PGM header printed by `main.cpp`. -/
def pgmHeader (size : ℕ) : String :=
  "P2 " ++ toString size ++ " " ++ toString size ++ " 255"

/-- The pixel values printed by `main.cpp` after the header: every cell of
the map, row by row. -/
def pgmValues (size : ℕ) (cell : ℕ × ℕ → ℕ) : List ℕ :=
  (List.range size).flatMap fun y => (List.range size).map fun x => cell (x, y)

/-- The corner seeding performed by `main.cpp` before the engine runs, up to
the caller-chosen corner value: the four corners hold the seed, every other
cell holds zero. -/
def seededGrid (size : ℕ) (c00 ce0 c0e cee : ℚ) : ℕ × ℕ → ℚ :=
  fun p =>
    if p = (0, 0) then c00
    else if p = (size - 1, 0) then ce0
    else if p = (0, size - 1) then c0e
    else if p = (size - 1, size - 1) then cee
    else 0

/-- The coarse lattice at spacing `t`: the in-bounds grid positions whose
coordinates are both multiples of `t` — the cells already determined when the
pass of step `t / 2` begins. -/
def coarsePred (t edge : ℕ) (q : ℕ × ℕ) : Prop :=
  t ∣ q.1 ∧ t ∣ q.2 ∧ q.1 ≤ edge ∧ q.2 ≤ edge

lemma runPass_nil (rnd : ℕ → ℚ → ℚ) (v : ℚ) (nb : ℕ × ℕ → List (ℕ × ℕ))
    (st : DSState) : runPass rnd v nb [] st = st := rfl

lemma runPass_cons (rnd : ℕ → ℚ → ℚ) (v : ℚ) (nb : ℕ × ℕ → List (ℕ × ℕ))
    (p : ℕ × ℕ) (ps : List (ℕ × ℕ)) (st : DSState) :
    runPass rnd v nb (p :: ps) st = runPass rnd v nb ps (passStep rnd v nb st p) := rfl

lemma runPass_ctr (rnd : ℕ → ℚ → ℚ) (v : ℚ) (nb : ℕ × ℕ → List (ℕ × ℕ))
    (ps : List (ℕ × ℕ)) :
    ∀ st : DSState, (runPass rnd v nb ps st).ctr = st.ctr + ps.length := by
  induction ps with
  | nil => intro st; rfl
  | cons p ps ih =>
      intro st
      rw [runPass_cons, ih]
      simp [passStep]
      omega

lemma runPass_wrs (rnd : ℕ → ℚ → ℚ) (v : ℚ) (nb : ℕ × ℕ → List (ℕ × ℕ))
    (ps : List (ℕ × ℕ)) :
    ∀ st : DSState, (runPass rnd v nb ps st).wrs = st.wrs ++ ps := by
  induction ps with
  | nil => intro st; simp [runPass_nil]
  | cons p ps ih =>
      intro st
      rw [runPass_cons, ih]
      simp [passStep]

lemma runPass_rds (rnd : ℕ → ℚ → ℚ) (v : ℚ) (nb : ℕ × ℕ → List (ℕ × ℕ))
    (ps : List (ℕ × ℕ)) :
    ∀ st : DSState, (runPass rnd v nb ps st).rds = st.rds ++ ps.flatMap nb := by
  induction ps with
  | nil => intro st; simp [runPass_nil]
  | cons p ps ih =>
      intro st
      rw [runPass_cons, ih]
      simp [passStep]

lemma runPass_grid_notMem (rnd : ℕ → ℚ → ℚ) (v : ℚ) (nb : ℕ × ℕ → List (ℕ × ℕ))
    (ps : List (ℕ × ℕ)) (q : ℕ × ℕ) (hq : q ∉ ps) :
    ∀ st : DSState, (runPass rnd v nb ps st).grid q = st.grid q := by
  induction ps with
  | nil => intro st; rfl
  | cons p ps ih =>
      intro st
      rw [runPass_cons, ih (fun h => hq (List.mem_cons_of_mem _ h))]
      have hqp : q ≠ p := fun h => hq (h ▸ List.mem_cons_self p ps)
      simp [passStep, hqp]

lemma map_grid_update (g : ℕ × ℕ → ℚ) (a : ℕ × ℕ) (w : ℚ) (l : List (ℕ × ℕ))
    (ha : a ∉ l) :
    l.map (fun q => if q = a then w else g q) = l.map g := by
  apply List.map_congr_left
  intro q hq
  have : q ≠ a := fun h => ha (h ▸ hq)
  simp [this]

lemma runPass_grid_mem (rnd : ℕ → ℚ → ℚ) (v : ℚ) (nb : ℕ × ℕ → List (ℕ × ℕ))
    (ps : List (ℕ × ℕ))
    (hdisj : ∀ p ∈ ps, ∀ q ∈ ps, q ∉ nb p) :
    ∀ (st : DSState) (p : ℕ × ℕ), p ∈ ps →
      ∃ j, st.ctr ≤ j ∧ j < st.ctr + ps.length ∧
        (runPass rnd v nb ps st).grid p =
          ((nb p).map st.grid).sum / ((nb p).length : ℚ) + (rnd j v - v / 2) := by
  induction ps with
  | nil => intro st p hp; exact absurd hp (List.not_mem_nil p)
  | cons a ps ih =>
      intro st p hp
      by_cases hpps : p ∈ ps
      · have hdisj' : ∀ p' ∈ ps, ∀ q ∈ ps, q ∉ nb p' := by
          intro p' hp' q hq
          exact hdisj p' (List.mem_cons_of_mem _ hp') q (List.mem_cons_of_mem _ hq)
        obtain ⟨j, hj1, hj2, hval⟩ := ih hdisj' (passStep rnd v nb st a) p hpps
        refine ⟨j, ?_, ?_, ?_⟩
        · have : (passStep rnd v nb st a).ctr = st.ctr + 1 := rfl
          omega
        · have : (passStep rnd v nb st a).ctr = st.ctr + 1 := rfl
          simp only [List.length_cons]
          omega
        · rw [runPass_cons, hval]
          have hanb : a ∉ nb p :=
            hdisj p (List.mem_cons_of_mem _ hpps) a (List.mem_cons_self a ps)
          have : (nb p).map (passStep rnd v nb st a).grid = (nb p).map st.grid := by
            simp only [passStep]
            exact map_grid_update st.grid a _ (nb p) hanb
          rw [this]
      · have hpa : p = a := by
          rcases List.mem_cons.mp hp with h | h
          · exact h
          · exact absurd h hpps
        subst hpa
        refine ⟨st.ctr, le_refl _, by simp, ?_⟩
        rw [runPass_cons,
          runPass_grid_notMem rnd v nb ps p hpps (passStep rnd v nb st p)]
        simp [passStep]

lemma runPass_congr (rnd : ℕ → ℚ → ℚ) (v : ℚ) (nb : ℕ × ℕ → List (ℕ × ℕ))
    (ps : List (ℕ × ℕ)) :
    ∀ (S : ℕ × ℕ → Prop) (st0 st1 : DSState),
      st0.ctr = st1.ctr →
      (∀ q, S q → st0.grid q = st1.grid q) →
      (∀ p ∈ ps, ∀ q ∈ nb p, S q) →
      (runPass rnd v nb ps st0).ctr = (runPass rnd v nb ps st1).ctr ∧
        ∀ q, S q ∨ q ∈ ps →
          (runPass rnd v nb ps st0).grid q = (runPass rnd v nb ps st1).grid q := by
  induction ps with
  | nil =>
      intro S st0 st1 hctr hS _
      refine ⟨hctr, ?_⟩
      intro q hq
      rcases hq with h | h
      · exact hS q h
      · exact absurd h (List.not_mem_nil q)
  | cons a ps ih =>
      intro S st0 st1 hctr hS hreads
      have hctr' : (passStep rnd v nb st0 a).ctr = (passStep rnd v nb st1 a).ctr := by
        simp [passStep, hctr]
      have hgrid' : ∀ q, (S q ∨ q = a) →
          (passStep rnd v nb st0 a).grid q = (passStep rnd v nb st1 a).grid q := by
        intro q hq
        have hmean : ((nb a).map st0.grid).sum = ((nb a).map st1.grid).sum := by
          have : (nb a).map st0.grid = (nb a).map st1.grid := by
            apply List.map_congr_left
            intro r hr
            exact hS r (hreads a (List.mem_cons_self a ps) r hr)
          rw [this]
        by_cases hqa : q = a
        · subst hqa
          simp [passStep, hmean, hctr]
        · rcases hq with h | h
          · simp only [passStep]
            simp only [if_neg hqa]
            exact hS q h
          · exact absurd h hqa
      have hreads' : ∀ p ∈ ps, ∀ q ∈ nb p, S q ∨ q = a := by
        intro p hp q hq
        exact Or.inl (hreads p (List.mem_cons_of_mem _ hp) q hq)
      obtain ⟨hc, hg⟩ := ih (fun q => S q ∨ q = a)
        (passStep rnd v nb st0 a) (passStep rnd v nb st1 a) hctr' hgrid' hreads'
      refine ⟨hc, ?_⟩
      intro q hq
      rw [runPass_cons, runPass_cons]
      apply hg
      rcases hq with h | h
      · exact Or.inl (Or.inl h)
      · rcases List.mem_cons.mp h with h1 | h1
        · exact Or.inl (Or.inr h1)
        · exact Or.inr h1

lemma mem_squarePoints (s edge : ℕ) (p : ℕ × ℕ) :
    p ∈ squarePoints s edge ↔
      ∃ i j, i < edge / (2 * s) ∧ j < edge / (2 * s) ∧
        p = (s * (2 * i + 1), s * (2 * j + 1)) := by
  simp only [squarePoints, List.mem_flatMap, List.mem_map, List.mem_range]
  constructor
  · rintro ⟨j, hj, i, hi, rfl⟩
    exact ⟨i, j, hi, hj, rfl⟩
  · rintro ⟨i, j, hi, hj, rfl⟩
    exact ⟨j, hj, i, hi, rfl⟩

lemma mem_diamondPoints (s edge : ℕ) (p : ℕ × ℕ) :
    p ∈ diamondPoints s edge ↔
      ∃ i j, i ≤ edge / s ∧ j ≤ edge / s ∧ (i + j) % 2 = 1 ∧ p = (s * i, s * j) := by
  simp only [diamondPoints, List.mem_flatMap, List.mem_filterMap, List.mem_range,
    Nat.lt_succ_iff]
  constructor
  · rintro ⟨j, hj, i, hi, hodd⟩
    split_ifs at hodd with h
    · injection hodd with h2
      exact ⟨i, j, hi, hj, h, h2.symm⟩
  · rintro ⟨i, j, hi, hj, hodd, rfl⟩
    exact ⟨j, hj, i, hi, by rw [if_pos hodd]⟩

lemma dsLoop_zero (size : ℕ) (rnd : ℕ → ℚ → ℚ) (variance : ℕ → ℚ) (L : ℕ)
    (st : DSState) : dsLoop size rnd variance 0 L st = st := by
  rw [dsLoop]
  simp

lemma dsLoop_succ (size : ℕ) (rnd : ℕ → ℚ → ℚ) (variance : ℕ → ℚ) (s L : ℕ)
    (st : DSState) (h : s ≠ 0) :
    dsLoop size rnd variance s L st =
      dsLoop size rnd variance (s / 2) (L + 1) (doLevel size rnd variance s L st) := by
  rw [dsLoop]
  exact dif_neg h

lemma levelPairs_zero (L : ℕ) : levelPairs 0 L = [] := by
  rw [levelPairs]
  simp

lemma levelPairs_succ (s L : ℕ) (h : s ≠ 0) :
    levelPairs s L = (s, L) :: levelPairs (s / 2) (L + 1) := by
  rw [levelPairs]
  exact dif_neg h

lemma levelPairs_pow (k : ℕ) :
    ∀ L : ℕ, levelPairs (2 ^ k) L =
      (List.range (k + 1)).map fun i => (2 ^ (k - i), L + i) := by
  induction k with
  | zero =>
      intro L
      have h1 : (2:ℕ) ^ 0 = 1 := rfl
      rw [h1, levelPairs_succ 1 L (by norm_num)]
      simp [levelPairs_zero, List.range_succ]
  | succ k ih =>
      intro L
      have hhalf : 2 ^ (k + 1) / 2 = 2 ^ k := by
        rw [pow_succ]
        exact Nat.mul_div_cancel _ (by norm_num)
      rw [levelPairs_succ _ _ (by positivity), hhalf, ih]
      conv_rhs => rw [List.range_succ_eq_map]
      simp only [List.map_cons, List.map_map]
      refine List.cons_eq_cons.mpr ⟨by simp, ?_⟩
      apply List.map_congr_left
      intro i hi
      simp only [Function.comp_apply, Prod.mk.injEq]
      have h2 : k - i = k + 1 - (i + 1) := by omega
      exact ⟨by rw [h2], by omega⟩

lemma dsLoop_eq_fold (size : ℕ) (rnd : ℕ → ℚ → ℚ) (variance : ℕ → ℚ) :
    ∀ (s L : ℕ) (st : DSState),
      dsLoop size rnd variance s L st =
        (levelPairs s L).foldl (fun st' q => doLevel size rnd variance q.1 q.2 st') st := by
  intro s
  induction s using Nat.strong_induction_on with
  | _ s ih =>
      intro L st
      by_cases h : s = 0
      · subst h
        rw [dsLoop_zero, levelPairs_zero]
        rfl
      · rw [dsLoop_succ _ _ _ _ _ _ h, levelPairs_succ _ _ h, List.foldl_cons]
        exact ih (s / 2) (Nat.div_lt_self (Nat.pos_of_ne_zero h) one_lt_two) _ _

lemma doLevel_wrs (size : ℕ) (rnd : ℕ → ℚ → ℚ) (variance : ℕ → ℚ) (s L : ℕ)
    (st : DSState) :
    (doLevel size rnd variance s L st).wrs =
      st.wrs ++ squarePoints s (size - 1) ++ diamondPoints s (size - 1) := by
  simp [doLevel, runPass_wrs]

lemma doLevel_rds (size : ℕ) (rnd : ℕ → ℚ → ℚ) (variance : ℕ → ℚ) (s L : ℕ)
    (st : DSState) :
    (doLevel size rnd variance s L st).rds =
      st.rds ++ (squarePoints s (size - 1)).flatMap (sqNbrs s)
        ++ (diamondPoints s (size - 1)).flatMap (diNbrs size s) := by
  simp [doLevel, runPass_rds]

lemma doLevel_ctr (size : ℕ) (rnd : ℕ → ℚ → ℚ) (variance : ℕ → ℚ) (s L : ℕ)
    (st : DSState) :
    (doLevel size rnd variance s L st).ctr =
      st.ctr + (squarePoints s (size - 1)).length + (diamondPoints s (size - 1)).length := by
  simp [doLevel, runPass_ctr]

lemma foldLevels_wrs (size : ℕ) (rnd : ℕ → ℚ → ℚ) (variance : ℕ → ℚ) :
    ∀ (lps : List (ℕ × ℕ)) (st : DSState),
      ((lps.foldl (fun st' q => doLevel size rnd variance q.1 q.2 st') st)).wrs =
        st.wrs ++ lps.flatMap
          (fun q => squarePoints q.1 (size - 1) ++ diamondPoints q.1 (size - 1)) := by
  intro lps
  induction lps with
  | nil => intro st; simp
  | cons a lps ih =>
      intro st
      rw [List.foldl_cons, ih, doLevel_wrs]
      simp

lemma foldLevels_rds (size : ℕ) (rnd : ℕ → ℚ → ℚ) (variance : ℕ → ℚ) :
    ∀ (lps : List (ℕ × ℕ)) (st : DSState),
      ((lps.foldl (fun st' q => doLevel size rnd variance q.1 q.2 st') st)).rds =
        st.rds ++ lps.flatMap
          (fun q => (squarePoints q.1 (size - 1)).flatMap (sqNbrs q.1)
            ++ (diamondPoints q.1 (size - 1)).flatMap (diNbrs size q.1)) := by
  intro lps
  induction lps with
  | nil => intro st; simp
  | cons a lps ih =>
      intro st
      rw [List.foldl_cons, ih, doLevel_rds]
      simp

lemma foldLevels_grid_notMem (size : ℕ) (rnd : ℕ → ℚ → ℚ) (variance : ℕ → ℚ)
    (c : ℕ × ℕ) :
    ∀ (lps : List (ℕ × ℕ)) (st : DSState),
      (∀ q ∈ lps, c ∉ squarePoints q.1 (size - 1) ∧ c ∉ diamondPoints q.1 (size - 1)) →
      ((lps.foldl (fun st' q => doLevel size rnd variance q.1 q.2 st') st)).grid c =
        st.grid c := by
  intro lps
  induction lps with
  | nil => intro st _; rfl
  | cons a lps ih =>
      intro st hmem
      rw [List.foldl_cons, ih _ (fun q hq => hmem q (List.mem_cons_of_mem _ hq))]
      have ha := hmem a (List.mem_cons_self a lps)
      simp only [doLevel]
      rw [runPass_grid_notMem _ _ _ _ _ ha.2, runPass_grid_notMem _ _ _ _ _ ha.1]

lemma mem_squarePoints_pos {s edge : ℕ} {p : ℕ × ℕ} (hp : p ∈ squarePoints s edge) :
    0 < s := by
  rcases (mem_squarePoints s edge p).mp hp with ⟨i, j, hi, hj, rfl⟩
  rcases Nat.eq_zero_or_pos s with h0 | h
  · subst h0
    simp at hi
  · exact h

lemma squarePoints_bounds {s edge : ℕ} {p : ℕ × ℕ} (hp : p ∈ squarePoints s edge) :
    s ≤ p.1 ∧ p.1 + s ≤ edge ∧ s ≤ p.2 ∧ p.2 + s ≤ edge := by
  have hs := mem_squarePoints_pos hp
  rcases (mem_squarePoints s edge p).mp hp with ⟨i, j, hi, hj, rfl⟩
  have h2s : 0 < 2 * s := by omega
  have hii : (i + 1) * (2 * s) ≤ edge :=
    (Nat.le_div_iff_mul_le h2s).mp (Nat.succ_le_of_lt hi)
  have hjj : (j + 1) * (2 * s) ≤ edge :=
    (Nat.le_div_iff_mul_le h2s).mp (Nat.succ_le_of_lt hj)
  have e1 : s * (2 * i + 1) + s = (i + 1) * (2 * s) := by ring
  have e2 : s * (2 * j + 1) + s = (j + 1) * (2 * s) := by ring
  have l1 : s * 1 ≤ s * (2 * i + 1) := Nat.mul_le_mul_left s (by omega)
  have l2 : s * 1 ≤ s * (2 * j + 1) := Nat.mul_le_mul_left s (by omega)
  refine ⟨by simpa using l1, by rw [e1]; exact hii, by simpa using l2, by rw [e2]; exact hjj⟩

lemma diamondPoints_bounds {s edge : ℕ} {p : ℕ × ℕ} (hp : p ∈ diamondPoints s edge) :
    p.1 ≤ edge ∧ p.2 ≤ edge := by
  rcases (mem_diamondPoints s edge p).mp hp with ⟨i, j, hi, hj, _, rfl⟩
  have b1 : s * i ≤ s * (edge / s) := Nat.mul_le_mul_left s hi
  have b2 : s * j ≤ s * (edge / s) := Nat.mul_le_mul_left s hj
  have b3 : s * (edge / s) ≤ edge := by
    rw [Nat.mul_comm]
    exact Nat.div_mul_le_self edge s
  exact ⟨le_trans b1 b3, le_trans b2 b3⟩

lemma sqNbrs_bounds {s edge : ℕ} {p q : ℕ × ℕ} (hq : q ∈ sqNbrs s p)
    (h1 : p.1 + s ≤ edge) (h2 : p.2 + s ≤ edge) :
    q.1 ≤ edge ∧ q.2 ≤ edge := by
  simp only [sqNbrs, List.mem_cons, List.not_mem_nil, or_false] at hq
  rcases hq with rfl | rfl | rfl | rfl <;> constructor <;> simp <;> omega

lemma diNbrs_bounds {size s : ℕ} {p q : ℕ × ℕ} (hq : q ∈ diNbrs size s p)
    (h1 : p.1 < size) (h2 : p.2 < size) :
    q.1 < size ∧ q.2 < size := by
  simp only [diNbrs, List.mem_append] at hq
  rcases hq with ((h | h) | h) | h <;> split_ifs at h with hc <;>
    simp only [List.mem_singleton, List.not_mem_nil] at h <;> subst h <;>
    exact ⟨by simp; omega, by simp; omega⟩

/-- Claim C5: throughout the run, every position the engine reads or writes
through the accessor lies inside the grid, `[0, size) × [0, size)`; this
holds for every size, valid sizes included. -/
theorem accessor_calls_in_bounds (size : ℕ) (rnd : ℕ → ℚ → ℚ) (variance : ℕ → ℚ)
    (g0 : ℕ × ℕ → ℚ) (q : ℕ × ℕ)
    (hq : q ∈ (diamond_square_no_wrap size rnd variance g0).rds ∨
          q ∈ (diamond_square_no_wrap size rnd variance g0).wrs) :
    q.1 < size ∧ q.2 < size := by
  rcases Nat.eq_zero_or_pos size with hsz | hsz
  · subst hsz
    rw [diamond_square_no_wrap, dsLoop_eq_fold] at hq
    norm_num [levelPairs_zero] at hq
  · have hedge : size - 1 < size := by omega
    rw [diamond_square_no_wrap, dsLoop_eq_fold] at hq
    rcases hq with h | h
    · rw [foldLevels_rds] at h
      simp only [List.nil_append, List.mem_flatMap, List.mem_append] at h
      rcases h with ⟨lvl, _, hin⟩
      rcases hin with hin | hin
      · rcases hin with ⟨p, hp, hnb⟩
        obtain ⟨_, hb1, _, hb2⟩ := squarePoints_bounds hp
        obtain ⟨c1, c2⟩ := sqNbrs_bounds hnb hb1 hb2
        omega
      · rcases hin with ⟨p, hp, hnb⟩
        obtain ⟨hb1, hb2⟩ := diamondPoints_bounds hp
        exact diNbrs_bounds hnb (by omega) (by omega)
    · rw [foldLevels_wrs] at h
      simp only [List.nil_append, List.mem_flatMap, List.mem_append] at h
      rcases h with ⟨lvl, _, hin⟩
      rcases hin with hin | hin
      · obtain ⟨_, hb1, _, hb2⟩ := squarePoints_bounds hin
        omega
      · obtain ⟨hb1, hb2⟩ := diamondPoints_bounds hin
        omega

lemma mem_diamondPoints_pos {s edge : ℕ} {p : ℕ × ℕ} (hp : p ∈ diamondPoints s edge) :
    0 < s := by
  rcases (mem_diamondPoints s edge p).mp hp with ⟨i, j, hi, hj, hodd, rfl⟩
  rcases Nat.eq_zero_or_pos s with h0 | h
  · subst h0
    simp only [Nat.div_zero, Nat.le_zero] at hi hj
    omega
  · exact h

lemma sq_reads_not_points (s edge : ℕ) :
    ∀ p ∈ squarePoints s edge, ∀ q ∈ squarePoints s edge, q ∉ sqNbrs s p := by
  intro p hp q hq hmem
  have hs := mem_squarePoints_pos hp
  rcases (mem_squarePoints s edge p).mp hp with ⟨i, j, _, _, rfl⟩
  rcases (mem_squarePoints s edge q).mp hq with ⟨a, b, _, _, rfl⟩
  have hsub1 : s * (2 * i + 1) - s = s * (2 * i) := by
    rw [Nat.mul_add, Nat.mul_one, Nat.add_sub_cancel]
  have hadd1 : s * (2 * i + 1) + s = s * (2 * i + 2) := by ring
  simp only [sqNbrs, List.mem_cons, List.not_mem_nil, or_false] at hmem
  rcases hmem with he | he | he | he <;>
    · have h1 := congrArg Prod.fst he
      simp only [hsub1, hadd1] at h1
      have := Nat.eq_of_mul_eq_mul_left hs h1
      omega

lemma diNbrs_of_point {size s i j : ℕ} {q : ℕ × ℕ} (hs : 0 < s)
    (hq : q ∈ diNbrs size s (s * i, s * j)) :
    ∃ a b, q = (s * a, s * b) ∧ (a + b) % 2 = (i + j + 1) % 2 := by
  simp only [diNbrs, List.mem_append] at hq
  rcases hq with ((h | h) | h) | h <;> split_ifs at h with hc <;>
    simp only [List.mem_singleton, List.not_mem_nil] at h <;> subst h
  · have hi1 : 1 ≤ i := by
      by_contra hi0
      push_neg at hi0
      interval_cases i
      simp at hc
      omega
    obtain ⟨i', rfl⟩ : ∃ i', i = i' + 1 := ⟨i - 1, by omega⟩
    refine ⟨i', j, ?_, by omega⟩
    have : s * (i' + 1) - s = s * i' := by
      rw [Nat.mul_succ, Nat.add_sub_cancel]
    rw [this]
  · exact ⟨i + 1, j, by rw [Nat.mul_succ], by omega⟩
  · have hj1 : 1 ≤ j := by
      by_contra hj0
      push_neg at hj0
      interval_cases j
      simp at hc
      omega
    obtain ⟨j', rfl⟩ : ∃ j', j = j' + 1 := ⟨j - 1, by omega⟩
    refine ⟨i, j', ?_, by omega⟩
    have : s * (j' + 1) - s = s * j' := by
      rw [Nat.mul_succ, Nat.add_sub_cancel]
    rw [this]
  · exact ⟨i, j + 1, by rw [Nat.mul_succ], by omega⟩

lemma di_reads_not_points (size s edge : ℕ) :
    ∀ p ∈ diamondPoints s edge, ∀ q ∈ diamondPoints s edge, q ∉ diNbrs size s p := by
  intro p hp q hq hmem
  have hs := mem_diamondPoints_pos hp
  rcases (mem_diamondPoints s edge p).mp hp with ⟨i, j, _, _, hodd, rfl⟩
  rcases (mem_diamondPoints s edge q).mp hq with ⟨a, b, _, _, hodd2, rfl⟩
  obtain ⟨c, d, heq, hpar⟩ := diNbrs_of_point hs hmem
  have h1 : a = c := Nat.eq_of_mul_eq_mul_left hs (congrArg Prod.fst heq)
  have h2 : b = d := Nat.eq_of_mul_eq_mul_left hs (congrArg Prod.snd heq)
  omega

lemma pow_context (n k : ℕ) (hk : k < n) :
    0 < (2 : ℕ) ^ k ∧ (2 : ℕ) ^ k * 2 ^ (n - k) = 2 ^ n ∧ 2 ∣ (2 : ℕ) ^ (n - k) ∧
      (2 : ℕ) ^ n / 2 ^ k = 2 ^ (n - k) ∧ 2 ≤ (2 : ℕ) ^ (n - k) := by
  refine ⟨Nat.pos_pow_of_pos k (by norm_num), ?_, ?_, ?_, ?_⟩
  · rw [← pow_add]
    congr 1
    omega
  · exact dvd_pow_self 2 (by omega)
  · exact Nat.pow_div (le_of_lt hk) (by norm_num)
  · calc (2 : ℕ) ^ 1 ≤ 2 ^ (n - k) := Nat.pow_le_pow_right (by norm_num) (by omega)
         _ = 2 ^ (n - k) := rfl

lemma step_le_iff (n k i : ℕ) (hk : k < n) :
    ((2 : ℕ) ^ k ≤ 2 ^ k * i ↔ 1 ≤ i) ∧
      ((2 : ℕ) ^ k * i + 2 ^ k < 2 ^ n + 1 ↔ i < 2 ^ (n - k)) := by
  obtain ⟨hspos, hmul, -, -, -⟩ := pow_context n k hk
  have hsucc : (2 : ℕ) ^ k * (i + 1) = 2 ^ k * i + 2 ^ k := by ring
  have hone : (2 : ℕ) ^ k * 1 = 2 ^ k := by ring
  constructor
  · constructor
    · intro h
      by_contra h0
      push_neg at h0
      interval_cases i
      rw [Nat.mul_zero] at h
      omega
    · intro h
      have := Nat.mul_le_mul_left ((2 : ℕ) ^ k) h
      omega
  · constructor
    · intro h
      have h2 : (2 : ℕ) ^ k * (i + 1) ≤ 2 ^ k * 2 ^ (n - k) := by
        rw [hmul]
        omega
      have := Nat.le_of_mul_le_mul_left h2 hspos
      omega
    · intro h
      have h2 : (2 : ℕ) ^ k * (i + 1) ≤ 2 ^ k * 2 ^ (n - k) :=
        Nat.mul_le_mul_left _ (by omega)
      rw [hmul] at h2
      omega

lemma diNbrs_sub_candidates {size s : ℕ} {p q : ℕ × ℕ} (hq : q ∈ diNbrs size s p) :
    q ∈ [(p.1 - s, p.2), (p.1 + s, p.2), (p.1, p.2 - s), (p.1, p.2 + s)] := by
  simp only [diNbrs, List.mem_append] at hq
  rcases hq with ((h | h) | h) | h <;> split_ifs at h with hc <;>
    simp only [List.mem_singleton, List.not_mem_nil] at h <;> subst h <;> simp

lemma diNbrs_cases (n k i j : ℕ) (hk : k < n)
    (hi : i ≤ 2 ^ (n - k)) (hj : j ≤ 2 ^ (n - k)) (hodd : (i + j) % 2 = 1) :
    ((i = 0 ∨ i = 2 ^ (n - k) ∨ j = 0 ∨ j = 2 ^ (n - k)) →
        (diNbrs (2 ^ n + 1) (2 ^ k) (2 ^ k * i, 2 ^ k * j)).length = 3) ∧
      (i ≠ 0 → i ≠ 2 ^ (n - k) → j ≠ 0 → j ≠ 2 ^ (n - k) →
        diNbrs (2 ^ n + 1) (2 ^ k) (2 ^ k * i, 2 ^ k * j) =
          [(2 ^ k * i - 2 ^ k, 2 ^ k * j), (2 ^ k * i + 2 ^ k, 2 ^ k * j),
            (2 ^ k * i, 2 ^ k * j - 2 ^ k), (2 ^ k * i, 2 ^ k * j + 2 ^ k)]) := by
  obtain ⟨hspos, hmul, hdvd2, -, hE2⟩ := pow_context n k hk
  obtain ⟨t, ht⟩ := hdvd2
  obtain ⟨ii1, ii2⟩ := step_le_iff n k i hk
  obtain ⟨jj1, jj2⟩ := step_le_iff n k j hk
  constructor
  · intro hb
    rcases hb with rfl | rfl | rfl | rfl
    · have c1 : ¬ ((2 : ℕ) ^ k ≤ 2 ^ k * 0) := by
        rw [Nat.mul_zero]
        omega
      have c2 : (2 : ℕ) ^ k * 0 + 2 ^ k < 2 ^ n + 1 := ii2.mpr (by omega)
      have c3 : (2 : ℕ) ^ k ≤ 2 ^ k * j := jj1.mpr (by omega)
      have c4 : (2 : ℕ) ^ k * j + 2 ^ k < 2 ^ n + 1 := jj2.mpr (by omega)
      simp only [diNbrs, if_neg c1, if_pos c2, if_pos c3, if_pos c4]
      rfl
    · have c1 : (2 : ℕ) ^ k ≤ 2 ^ k * 2 ^ (n - k) := ii1.mpr (by omega)
      have c2 : ¬ ((2 : ℕ) ^ k * 2 ^ (n - k) + 2 ^ k < 2 ^ n + 1) := by
        intro h
        have := ii2.mp h
        omega
      have c3 : (2 : ℕ) ^ k ≤ 2 ^ k * j := jj1.mpr (by omega)
      have c4 : (2 : ℕ) ^ k * j + 2 ^ k < 2 ^ n + 1 := jj2.mpr (by omega)
      simp only [diNbrs, if_pos c1, if_neg c2, if_pos c3, if_pos c4]
      rfl
    · have c1 : (2 : ℕ) ^ k ≤ 2 ^ k * i := ii1.mpr (by omega)
      have c2 : (2 : ℕ) ^ k * i + 2 ^ k < 2 ^ n + 1 := ii2.mpr (by omega)
      have c3 : ¬ ((2 : ℕ) ^ k ≤ 2 ^ k * 0) := by
        rw [Nat.mul_zero]
        omega
      have c4 : (2 : ℕ) ^ k * 0 + 2 ^ k < 2 ^ n + 1 := jj2.mpr (by omega)
      simp only [diNbrs, if_pos c1, if_pos c2, if_neg c3, if_pos c4]
      rfl
    · have c1 : (2 : ℕ) ^ k ≤ 2 ^ k * i := ii1.mpr (by omega)
      have c2 : (2 : ℕ) ^ k * i + 2 ^ k < 2 ^ n + 1 := ii2.mpr (by omega)
      have c3 : (2 : ℕ) ^ k ≤ 2 ^ k * 2 ^ (n - k) := jj1.mpr (by omega)
      have c4 : ¬ ((2 : ℕ) ^ k * 2 ^ (n - k) + 2 ^ k < 2 ^ n + 1) := by
        intro h
        have := jj2.mp h
        omega
      simp only [diNbrs, if_pos c1, if_pos c2, if_pos c3, if_neg c4]
      rfl
  · intro h1 h2 h3 h4
    have c1 : (2 : ℕ) ^ k ≤ 2 ^ k * i := ii1.mpr (by omega)
    have c2 : (2 : ℕ) ^ k * i + 2 ^ k < 2 ^ n + 1 := ii2.mpr (by omega)
    have c3 : (2 : ℕ) ^ k ≤ 2 ^ k * j := jj1.mpr (by omega)
    have c4 : (2 : ℕ) ^ k * j + 2 ^ k < 2 ^ n + 1 := jj2.mpr (by omega)
    simp only [diNbrs, if_pos c1, if_pos c2, if_pos c3, if_pos c4]
    rfl

lemma mul_eq_zero_iff_right {s a : ℕ} (hs : 0 < s) : s * a = 0 ↔ a = 0 := by
  constructor
  · intro h
    rcases Nat.mul_eq_zero.mp h with h | h
    · omega
    · exact h
  · rintro rfl
    exact Nat.mul_zero s

/-- Claim C1 (amended): in the diamond pass at step `s` of a valid grid,
every midpoint is assigned the arithmetic mean of exactly its in-bounds
neighbours plus the perturbation of the level; the neighbours are drawn only
from the four axis positions at distance `s` and are all inside the grid (no
wrapped or synthetic neighbour), a boundary midpoint has exactly 3 in-bounds
neighbours, and an interior midpoint averages its 4 axis neighbours. -/
theorem diamond_pass_inbounds_mean (size n k s : ℕ) (rnd : ℕ → ℚ → ℚ) (v : ℚ)
    (st : DSState) (p : ℕ × ℕ)
    (hsize : size = 2 ^ n + 1) (hs : s = 2 ^ k) (hk : k < n)
    (hp : p ∈ diamondPoints s (size - 1)) :
    (∃ c, st.ctr ≤ c ∧ c < st.ctr + (diamondPoints s (size - 1)).length ∧
        (runPass rnd v (diNbrs size s) (diamondPoints s (size - 1)) st).grid p =
          ((diNbrs size s p).map st.grid).sum / ((diNbrs size s p).length : ℚ) +
            (rnd c v - v / 2)) ∧
      (∀ q ∈ diNbrs size s p,
        (q.1 < size ∧ q.2 < size) ∧
          q ∈ [(p.1 - s, p.2), (p.1 + s, p.2), (p.1, p.2 - s), (p.1, p.2 + s)]) ∧
      ((p.1 = 0 ∨ p.1 = size - 1 ∨ p.2 = 0 ∨ p.2 = size - 1) →
        (diNbrs size s p).length = 3) ∧
      (p.1 ≠ 0 → p.1 ≠ size - 1 → p.2 ≠ 0 → p.2 ≠ size - 1 →
        diNbrs size s p =
          [(p.1 - s, p.2), (p.1 + s, p.2), (p.1, p.2 - s), (p.1, p.2 + s)]) := by
  subst hs
  subst hsize
  have hedge : 2 ^ n + 1 - 1 = 2 ^ n := by simp
  obtain ⟨hspos, hmul, -, hdiv, hE2⟩ := pow_context n k hk
  have hvalue := runPass_grid_mem rnd v (diNbrs (2 ^ n + 1) (2 ^ k))
    (diamondPoints (2 ^ k) (2 ^ n + 1 - 1))
    (di_reads_not_points (2 ^ n + 1) (2 ^ k) (2 ^ n + 1 - 1)) st p hp
  have hbounds := diamondPoints_bounds hp
  refine ⟨hvalue, ?_, ?_, ?_⟩
  · intro q hq
    refine ⟨diNbrs_bounds hq (by omega) (by omega), diNbrs_sub_candidates hq⟩
  all_goals
    rcases (mem_diamondPoints _ _ p).mp hp with ⟨a, b, ha, hb, hodd, rfl⟩
  all_goals
    rw [hedge, hdiv] at ha hb
  all_goals
    have hcases := diNbrs_cases n k a b hk ha hb hodd
  all_goals
    have hza : (2 : ℕ) ^ k * a = 0 ↔ a = 0 := mul_eq_zero_iff_right hspos
  all_goals
    have hzb : (2 : ℕ) ^ k * b = 0 ↔ b = 0 := mul_eq_zero_iff_right hspos
  all_goals
    have hea : (2 : ℕ) ^ k * a = 2 ^ n + 1 - 1 ↔ a = 2 ^ (n - k) := by
      rw [hedge, ← hmul]
      exact ⟨Nat.eq_of_mul_eq_mul_left hspos, fun h => by rw [h]⟩
  all_goals
    have heb : (2 : ℕ) ^ k * b = 2 ^ n + 1 - 1 ↔ b = 2 ^ (n - k) := by
      rw [hedge, ← hmul]
      exact ⟨Nat.eq_of_mul_eq_mul_left hspos, fun h => by rw [h]⟩
  · intro hbdy
    apply hcases.1
    simp only at hbdy
    rcases hbdy with h | h | h | h
    · exact Or.inl (hza.mp h)
    · exact Or.inr (Or.inl (hea.mp h))
    · exact Or.inr (Or.inr (Or.inl (hzb.mp h)))
    · exact Or.inr (Or.inr (Or.inr (heb.mp h)))
  · intro h1 h2 h3 h4
    simp only at h1 h2 h3 h4 ⊢
    exact hcases.2 (fun h => h1 (hza.mpr h)) (fun h => h2 (hea.mpr h))
      (fun h => h3 (hzb.mpr h)) (fun h => h4 (heb.mpr h))

/-- Claim C4: both passes of a level add the same perturbation construction,
`random(variance L) - variance L / 2`: the stored value is the arithmetic
mean of the neighbours plus that signed offset, the offset is symmetric about
zero and, whenever the random sample lies in `[0, variance L]`, its magnitude
is bounded by `variance L` (indeed by half of it); the square pass always
averages exactly four neighbours. -/
theorem perturbation_construction (size s L : ℕ) (rnd : ℕ → ℚ → ℚ)
    (variance : ℕ → ℚ) (st st' : DSState) (p q : ℕ × ℕ)
    (hp : p ∈ squarePoints s (size - 1)) (hq : q ∈ diamondPoints s (size - 1))
    (hrnd : ∀ c, 0 ≤ rnd c (variance L) ∧ rnd c (variance L) ≤ variance L) :
    (∃ c, (runPass rnd (variance L) (sqNbrs s) (squarePoints s (size - 1)) st).grid p =
        ((sqNbrs s p).map st.grid).sum / ((sqNbrs s p).length : ℚ) +
          (rnd c (variance L) - variance L / 2) ∧
        -(variance L) ≤ rnd c (variance L) - variance L / 2 ∧
        rnd c (variance L) - variance L / 2 ≤ variance L) ∧
      (∃ c, (runPass rnd (variance L) (diNbrs size s)
            (diamondPoints s (size - 1)) st').grid q =
          ((diNbrs size s q).map st'.grid).sum / ((diNbrs size s q).length : ℚ) +
            (rnd c (variance L) - variance L / 2) ∧
          -(variance L) ≤ rnd c (variance L) - variance L / 2 ∧
          rnd c (variance L) - variance L / 2 ≤ variance L) ∧
      (sqNbrs s p).length = 4 := by
  have hv0 : 0 ≤ variance L := le_trans (hrnd 0).1 (hrnd 0).2
  obtain ⟨c1, -, -, h1⟩ := runPass_grid_mem rnd (variance L) (sqNbrs s)
    (squarePoints s (size - 1)) (sq_reads_not_points s (size - 1)) st p hp
  obtain ⟨c2, -, -, h2⟩ := runPass_grid_mem rnd (variance L) (diNbrs size s)
    (diamondPoints s (size - 1)) (di_reads_not_points size s (size - 1)) st' q hq
  refine ⟨⟨c1, h1, ?_, ?_⟩, ⟨c2, h2, ?_, ?_⟩, rfl⟩
  · have := (hrnd c1).1
    linarith
  · have := (hrnd c1).2
    linarith
  · have := (hrnd c2).1
    linarith
  · have := (hrnd c2).2
    linarith

lemma corner_not_mem_diamond (n m : ℕ) (hm : m < n) (c : ℕ × ℕ)
    (hc1 : c.1 = 0 ∨ c.1 = 2 ^ n) (hc2 : c.2 = 0 ∨ c.2 = 2 ^ n) :
    c ∉ diamondPoints (2 ^ m) (2 ^ n) := by
  intro hmem
  obtain ⟨hspos, hmul, hdvd2, hdiv, hE2⟩ := pow_context n m hm
  obtain ⟨t2, ht2⟩ := hdvd2
  rcases (mem_diamondPoints _ _ _).mp hmem with ⟨i, j, hi, hj, hodd, heq⟩
  have h1 : c.1 = 2 ^ m * i := by rw [heq]
  have h2 : c.2 = 2 ^ m * j := by rw [heq]
  have hieven : i % 2 = 0 := by
    rcases hc1 with h | h
    · have : i = 0 := (mul_eq_zero_iff_right hspos).mp (by omega)
      omega
    · have he : 2 ^ m * i = 2 ^ m * 2 ^ (n - m) := by rw [hmul, ← h, h1]
      have hieq := Nat.eq_of_mul_eq_mul_left hspos he
      omega
  have hjeven : j % 2 = 0 := by
    rcases hc2 with h | h
    · have : j = 0 := (mul_eq_zero_iff_right hspos).mp (by omega)
      omega
    · have he : 2 ^ m * j = 2 ^ m * 2 ^ (n - m) := by rw [hmul, ← h, h2]
      have hjeq := Nat.eq_of_mul_eq_mul_left hspos he
      omega
  omega

lemma start_step_pow (n : ℕ) (hn : 0 < n) : (2 ^ n + 1 - 1) / 2 = 2 ^ (n - 1) := by
  have h1 : 2 ^ n + 1 - 1 = 2 ^ n := by simp
  rw [h1]
  calc (2 : ℕ) ^ n / 2 = 2 ^ n / 2 ^ 1 := by norm_num
    _ = 2 ^ (n - 1) := Nat.pow_div hn (by norm_num)

/-- Claim C2: for a valid size the engine never writes a corner — after the
run each of the four corner cells still holds the value the caller seeded. -/
theorem corners_never_written (size n : ℕ) (rnd : ℕ → ℚ → ℚ) (variance : ℕ → ℚ)
    (g0 : ℕ × ℕ → ℚ) (hsize : size = 2 ^ n + 1) (hn : 0 < n) (c : ℕ × ℕ)
    (hc : (c.1 = 0 ∨ c.1 = size - 1) ∧ (c.2 = 0 ∨ c.2 = size - 1)) :
    (diamond_square_no_wrap size rnd variance g0).grid c = g0 c := by
  subst hsize
  have hedge : 2 ^ n + 1 - 1 = 2 ^ n := by simp
  rw [hedge] at hc
  rw [diamond_square_no_wrap, dsLoop_eq_fold, start_step_pow n hn]
  apply foldLevels_grid_notMem
  intro q hq
  rw [levelPairs_pow] at hq
  rcases List.mem_map.mp hq with ⟨idx, hidx, rfl⟩
  have hidx' : idx < n - 1 + 1 := List.mem_range.mp hidx
  rw [hedge]
  constructor
  · intro hmem
    have hspos := mem_squarePoints_pos hmem
    obtain ⟨hb1, hb2, hb3, hb4⟩ := squarePoints_bounds hmem
    rcases hc.1 with h | h <;> omega
  · exact corner_not_mem_diamond n (n - 1 - idx) (by omega) c hc.1 hc.2

lemma two_adic_decomp (n x y : ℕ) (hx : x ≤ 2 ^ n) (hy : y ≤ 2 ^ n)
    (hnc : ¬((x = 0 ∨ x = 2 ^ n) ∧ (y = 0 ∨ y = 2 ^ n))) :
    ∃ m, m < n ∧ ∃ i j, x = 2 ^ m * i ∧ y = 2 ^ m * j ∧
      ¬(i % 2 = 0 ∧ j % 2 = 0) := by
  haveI : Fact (Nat.Prime 2) := ⟨Nat.prime_two⟩
  have hg0 : Nat.gcd x y ≠ 0 := by
    intro h
    exact hnc ⟨Or.inl (Nat.eq_zero_of_gcd_eq_zero_left h),
      Or.inl (Nat.eq_zero_of_gcd_eq_zero_right h)⟩
  set v := padicValNat 2 (Nat.gcd x y) with hv
  have hdvd : 2 ^ v ∣ Nat.gcd x y := pow_padicValNat_dvd
  have hndvd : ¬ 2 ^ (v + 1) ∣ Nat.gcd x y := pow_succ_padicValNat_not_dvd hg0
  have hdx : 2 ^ v ∣ x := hdvd.trans (Nat.gcd_dvd_left x y)
  have hdy : 2 ^ v ∣ y := hdvd.trans (Nat.gcd_dvd_right x y)
  have hm : v < n := by
    by_contra hge
    push_neg at hge
    have hdnx : 2 ^ n ∣ x := (pow_dvd_pow 2 hge).trans hdx
    have hdny : 2 ^ n ∣ y := (pow_dvd_pow 2 hge).trans hdy
    have hx' : x = 0 ∨ x = 2 ^ n := by
      rcases Nat.eq_zero_or_pos x with h | h
      · exact Or.inl h
      · exact Or.inr (le_antisymm hx (Nat.le_of_dvd h hdnx))
    have hy' : y = 0 ∨ y = 2 ^ n := by
      rcases Nat.eq_zero_or_pos y with h | h
      · exact Or.inl h
      · exact Or.inr (le_antisymm hy (Nat.le_of_dvd h hdny))
    exact hnc ⟨hx', hy'⟩
  obtain ⟨i, hi⟩ := hdx
  obtain ⟨j, hj⟩ := hdy
  refine ⟨v, hm, i, j, hi, hj, ?_⟩
  rintro ⟨hie, hje⟩
  obtain ⟨i2, hi2⟩ : 2 ∣ i := ⟨i / 2, by omega⟩
  obtain ⟨j2, hj2⟩ : 2 ∣ j := ⟨j / 2, by omega⟩
  have hdx2 : 2 ^ (v + 1) ∣ x := ⟨i2, by rw [hi, hi2]; ring⟩
  have hdy2 : 2 ^ (v + 1) ∣ y := ⟨j2, by rw [hj, hj2]; ring⟩
  exact hndvd (Nat.dvd_gcd hdx2 hdy2)

lemma cell_mem_pass (n m i j : ℕ) (hm : m < n)
    (hin : 2 ^ m * i ≤ 2 ^ n) (hjn : 2 ^ m * j ≤ 2 ^ n)
    (hpar : ¬(i % 2 = 0 ∧ j % 2 = 0)) :
    (2 ^ m * i, 2 ^ m * j) ∈ squarePoints (2 ^ m) (2 ^ n) ∨
      (2 ^ m * i, 2 ^ m * j) ∈ diamondPoints (2 ^ m) (2 ^ n) := by
  obtain ⟨hspos, hmul, hdvd2, hdiv, hE2⟩ := pow_context n m hm
  have hi : i ≤ 2 ^ (n - m) := by
    have h2 : 2 ^ m * i ≤ 2 ^ m * 2 ^ (n - m) := by rw [hmul]; exact hin
    exact Nat.le_of_mul_le_mul_left h2 hspos
  have hj : j ≤ 2 ^ (n - m) := by
    have h2 : 2 ^ m * j ≤ 2 ^ m * 2 ^ (n - m) := by rw [hmul]; exact hjn
    exact Nat.le_of_mul_le_mul_left h2 hspos
  by_cases hodd : (i + j) % 2 = 1
  · right
    apply (mem_diamondPoints _ _ _).mpr
    exact ⟨i, j, by rw [hdiv]; exact hi, by rw [hdiv]; exact hj, hodd, rfl⟩
  · left
    have hio : i % 2 = 1 := by omega
    have hjo : j % 2 = 1 := by omega
    obtain ⟨t2, ht2⟩ := hdvd2
    have hE' : (2 : ℕ) ^ (n - m) = 2 * 2 ^ (n - m - 1) := by
      rw [← pow_succ']
      congr 1
      omega
    have hdivm : (2 : ℕ) ^ n / (2 * 2 ^ m) = 2 ^ (n - m - 1) := by
      have h21 : 2 * (2 : ℕ) ^ m = 2 ^ (m + 1) := by ring
      rw [h21, Nat.pow_div (by omega) (by norm_num)]
      congr 1
    apply (mem_squarePoints _ _ _).mpr
    refine ⟨i / 2, j / 2, by rw [hdivm]; omega, by rw [hdivm]; omega, ?_⟩
    have hii : 2 * (i / 2) + 1 = i := by omega
    have hjj : 2 * (j / 2) + 1 = j := by omega
    rw [hii, hjj]

/-- Claim C3: after a run on a valid grid every cell of
`[0, size) × [0, size)` is either one of the four caller-seeded corners or a
cell the engine wrote at least once. -/
theorem every_cell_assigned (size n : ℕ) (rnd : ℕ → ℚ → ℚ) (variance : ℕ → ℚ)
    (g0 : ℕ × ℕ → ℚ) (hsize : size = 2 ^ n + 1) (hn : 0 < n) (x y : ℕ)
    (hx : x < size) (hy : y < size) :
    ((x = 0 ∨ x = size - 1) ∧ (y = 0 ∨ y = size - 1)) ∨
      (x, y) ∈ (diamond_square_no_wrap size rnd variance g0).wrs := by
  subst hsize
  have hedge : 2 ^ n + 1 - 1 = 2 ^ n := by simp
  by_cases hcorner : (x = 0 ∨ x = 2 ^ n) ∧ (y = 0 ∨ y = 2 ^ n)
  · left
    rw [hedge]
    exact hcorner
  · right
    rw [diamond_square_no_wrap, dsLoop_eq_fold, start_step_pow n hn, foldLevels_wrs]
    simp only [List.nil_append]
    obtain ⟨m, hm, i, j, hxi, hyj, hpar⟩ :=
      two_adic_decomp n x y (by omega) (by omega) hcorner
    have hlvl : ((2 : ℕ) ^ m, 0 + (n - 1 - m)) ∈ levelPairs (2 ^ (n - 1)) 0 := by
      rw [levelPairs_pow]
      apply List.mem_map.mpr
      refine ⟨n - 1 - m, List.mem_range.mpr (by omega), ?_⟩
      have he : n - 1 - (n - 1 - m) = m := by omega
      rw [he]
    apply List.mem_flatMap.mpr
    refine ⟨((2 : ℕ) ^ m, 0 + (n - 1 - m)), hlvl, ?_⟩
    rw [hedge]
    subst hxi
    subst hyj
    exact List.mem_append.mpr (cell_mem_pass n m i j hm (by omega) (by omega) hpar)

lemma sq_reads_coarse (s edge : ℕ) :
    ∀ p ∈ squarePoints s edge, ∀ q ∈ sqNbrs s p, coarsePred (2 * s) edge q := by
  intro p hp q hq
  have hs := mem_squarePoints_pos hp
  obtain ⟨hb1, hb2, hb3, hb4⟩ := squarePoints_bounds hp
  obtain ⟨hq1, hq2⟩ := sqNbrs_bounds hq hb2 hb4
  rcases (mem_squarePoints _ _ _).mp hp with ⟨i, j, hi, hj, heq⟩
  subst heq
  have hsub1 : s * (2 * i + 1) - s = 2 * s * i := by
    rw [Nat.mul_add, Nat.mul_one, Nat.add_sub_cancel]
    ring
  have hadd1 : s * (2 * i + 1) + s = 2 * s * (i + 1) := by ring
  have hsub2 : s * (2 * j + 1) - s = 2 * s * j := by
    rw [Nat.mul_add, Nat.mul_one, Nat.add_sub_cancel]
    ring
  have hadd2 : s * (2 * j + 1) + s = 2 * s * (j + 1) := by ring
  simp only [sqNbrs, List.mem_cons, List.not_mem_nil, or_false] at hq
  rcases hq with rfl | rfl | rfl | rfl <;>
    exact ⟨by simp only [hsub1, hadd1]; exact Dvd.intro _ rfl,
      by simp only [hsub2, hadd2]; exact Dvd.intro _ rfl, hq1, hq2⟩

lemma odd_indices_mem_square (n m a b : ℕ) (hm : m < n)
    (ha : a ≤ 2 ^ (n - m)) (hb : b ≤ 2 ^ (n - m))
    (hao : a % 2 = 1) (hbo : b % 2 = 1) :
    (2 ^ m * a, 2 ^ m * b) ∈ squarePoints (2 ^ m) (2 ^ n) := by
  obtain ⟨hspos, hmul, hdvd2, hdiv, hE2⟩ := pow_context n m hm
  obtain ⟨t2, ht2⟩ := hdvd2
  have hE' : (2 : ℕ) ^ (n - m) = 2 * 2 ^ (n - m - 1) := by
    rw [← pow_succ']
    congr 1
    omega
  have hdivm : (2 : ℕ) ^ n / (2 * 2 ^ m) = 2 ^ (n - m - 1) := by
    have h21 : 2 * (2 : ℕ) ^ m = 2 ^ (m + 1) := by ring
    rw [h21, Nat.pow_div (by omega) (by norm_num)]
    congr 1
  apply (mem_squarePoints _ _ _).mpr
  refine ⟨a / 2, b / 2, by rw [hdivm]; omega, by rw [hdivm]; omega, ?_⟩
  rw [show 2 * (a / 2) + 1 = a by omega, show 2 * (b / 2) + 1 = b by omega]

lemma di_reads_split (n k : ℕ) (hk : k < n) :
    ∀ p ∈ diamondPoints (2 ^ k) (2 ^ n), ∀ q ∈ diNbrs (2 ^ n + 1) (2 ^ k) p,
      coarsePred (2 * 2 ^ k) (2 ^ n) q ∨ q ∈ squarePoints (2 ^ k) (2 ^ n) := by
  intro p hp q hq
  obtain ⟨hspos, hmul, hdvd2, hdiv, hE2⟩ := pow_context n k hk
  have hpb := diamondPoints_bounds hp
  obtain ⟨hq1, hq2⟩ := diNbrs_bounds hq (by omega) (by omega)
  rcases (mem_diamondPoints _ _ _).mp hp with ⟨i, j, hi, hj, hodd, heqp⟩
  subst heqp
  obtain ⟨a, b, rfl, hpar⟩ := diNbrs_of_point hspos hq
  have ha : a ≤ 2 ^ (n - k) := by
    have h2 : 2 ^ k * a ≤ 2 ^ k * 2 ^ (n - k) := by
      rw [hmul]
      simp only at hq1
      omega
    exact Nat.le_of_mul_le_mul_left h2 hspos
  have hb : b ≤ 2 ^ (n - k) := by
    have h2 : 2 ^ k * b ≤ 2 ^ k * 2 ^ (n - k) := by
      rw [hmul]
      simp only at hq2
      omega
    exact Nat.le_of_mul_le_mul_left h2 hspos
  by_cases hae : a % 2 = 0
  · left
    have hbe : b % 2 = 0 := by omega
    have hda : 2 ^ k * a = 2 * 2 ^ k * (a / 2) := by
      have h2a : a / 2 * 2 = a := Nat.div_mul_cancel ⟨a / 2, by omega⟩
      calc 2 ^ k * a = 2 ^ k * (a / 2 * 2) := by rw [h2a]
        _ = 2 * 2 ^ k * (a / 2) := by ring
    have hdb : 2 ^ k * b = 2 * 2 ^ k * (b / 2) := by
      have h2b : b / 2 * 2 = b := Nat.div_mul_cancel ⟨b / 2, by omega⟩
      calc 2 ^ k * b = 2 ^ k * (b / 2 * 2) := by rw [h2b]
        _ = 2 * 2 ^ k * (b / 2) := by ring
    exact ⟨⟨a / 2, hda⟩, ⟨b / 2, hdb⟩, by simp only at hq1 ⊢; omega,
      by simp only at hq2 ⊢; omega⟩
  · right
    have hao : a % 2 = 1 := by omega
    have hbo : b % 2 = 1 := by omega
    exact odd_indices_mem_square n k a b hk ha hb hao hbo

lemma coarse_split (n k : ℕ) (hk : k < n) (q : ℕ × ℕ)
    (hq : coarsePred (2 ^ k) (2 ^ n) q) :
    coarsePred (2 * 2 ^ k) (2 ^ n) q ∨ q ∈ squarePoints (2 ^ k) (2 ^ n) ∨
      q ∈ diamondPoints (2 ^ k) (2 ^ n) := by
  obtain ⟨⟨a, ha⟩, ⟨b, hb⟩, h1, h2⟩ := hq
  obtain ⟨hspos, hmul, hdvd2, hdiv, hE2⟩ := pow_context n k hk
  have hqe : q = (2 ^ k * a, 2 ^ k * b) := Prod.ext ha hb
  subst hqe
  simp only at h1 h2
  by_cases hpar : a % 2 = 0 ∧ b % 2 = 0
  · left
    have hda : 2 ^ k * a = 2 * 2 ^ k * (a / 2) := by
      have h2a : a / 2 * 2 = a := Nat.div_mul_cancel ⟨a / 2, by omega⟩
      calc 2 ^ k * a = 2 ^ k * (a / 2 * 2) := by rw [h2a]
        _ = 2 * 2 ^ k * (a / 2) := by ring
    have hdb : 2 ^ k * b = 2 * 2 ^ k * (b / 2) := by
      have h2b : b / 2 * 2 = b := Nat.div_mul_cancel ⟨b / 2, by omega⟩
      calc 2 ^ k * b = 2 ^ k * (b / 2 * 2) := by rw [h2b]
        _ = 2 * 2 ^ k * (b / 2) := by ring
    exact ⟨⟨a / 2, hda⟩, ⟨b / 2, hdb⟩, h1, h2⟩
  · right
    exact cell_mem_pass n k a b hk h1 h2 hpar

lemma doLevel_congr (n k : ℕ) (hk : k < n) (rnd : ℕ → ℚ → ℚ) (variance : ℕ → ℚ)
    (L : ℕ) (st0 st1 : DSState) (hctr : st0.ctr = st1.ctr)
    (hagree : ∀ q, coarsePred (2 * 2 ^ k) (2 ^ n) q → st0.grid q = st1.grid q) :
    (doLevel (2 ^ n + 1) rnd variance (2 ^ k) L st0).ctr =
        (doLevel (2 ^ n + 1) rnd variance (2 ^ k) L st1).ctr ∧
      ∀ q, coarsePred (2 ^ k) (2 ^ n) q →
        (doLevel (2 ^ n + 1) rnd variance (2 ^ k) L st0).grid q =
          (doLevel (2 ^ n + 1) rnd variance (2 ^ k) L st1).grid q := by
  have hedge : 2 ^ n + 1 - 1 = 2 ^ n := by simp
  simp only [doLevel, hedge]
  obtain ⟨hc1, hg1⟩ := runPass_congr rnd (variance L) (sqNbrs (2 ^ k))
    (squarePoints (2 ^ k) (2 ^ n)) (coarsePred (2 * 2 ^ k) (2 ^ n)) st0 st1 hctr
    hagree (sq_reads_coarse (2 ^ k) (2 ^ n))
  obtain ⟨hc2, hg2⟩ := runPass_congr rnd (variance L) (diNbrs (2 ^ n + 1) (2 ^ k))
    (diamondPoints (2 ^ k) (2 ^ n))
    (fun q => coarsePred (2 * 2 ^ k) (2 ^ n) q ∨ q ∈ squarePoints (2 ^ k) (2 ^ n))
    (runPass rnd (variance L) (sqNbrs (2 ^ k)) (squarePoints (2 ^ k) (2 ^ n)) st0)
    (runPass rnd (variance L) (sqNbrs (2 ^ k)) (squarePoints (2 ^ k) (2 ^ n)) st1)
    hc1 hg1 (di_reads_split n k hk)
  refine ⟨hc2, ?_⟩
  intro q hq
  apply hg2
  rcases coarse_split n k hk q hq with h | h | h
  · exact Or.inl (Or.inl h)
  · exact Or.inl (Or.inr h)
  · exact Or.inr h

lemma dsLoop_congr_pow (n : ℕ) (rnd : ℕ → ℚ → ℚ) (variance : ℕ → ℚ) :
    ∀ k, k < n → ∀ (L : ℕ) (st0 st1 : DSState), st0.ctr = st1.ctr →
      (∀ q, coarsePred (2 * 2 ^ k) (2 ^ n) q → st0.grid q = st1.grid q) →
      ∀ q, coarsePred 1 (2 ^ n) q →
        (dsLoop (2 ^ n + 1) rnd variance (2 ^ k) L st0).grid q =
          (dsLoop (2 ^ n + 1) rnd variance (2 ^ k) L st1).grid q := by
  intro k
  induction k with
  | zero =>
      intro hk L st0 st1 hctr hagree q hq
      have h0 : (2 : ℕ) ^ 0 / 2 = 0 := by norm_num
      rw [dsLoop_succ _ _ _ _ _ _ (by norm_num), h0, dsLoop_zero,
        dsLoop_succ _ _ _ _ _ _ (by norm_num), h0, dsLoop_zero]
      obtain ⟨-, hg⟩ := doLevel_congr n 0 hk rnd variance L st0 st1 hctr hagree
      apply hg
      simpa using hq
  | succ k ih =>
      intro hk L st0 st1 hctr hagree q hq
      have hne : (2 : ℕ) ^ (k + 1) ≠ 0 := by positivity
      have hhalf : (2 : ℕ) ^ (k + 1) / 2 = 2 ^ k := by
        rw [pow_succ]
        exact Nat.mul_div_cancel _ (by norm_num)
      rw [dsLoop_succ _ _ _ _ _ _ hne, dsLoop_succ _ _ _ _ _ _ hne, hhalf]
      obtain ⟨hcc, hgg⟩ := doLevel_congr n (k + 1) hk rnd variance L st0 st1 hctr hagree
      apply ih (by omega) (L + 1) _ _ hcc ?_ q hq
      intro q' hq'
      apply hgg
      have h2 : 2 * (2 : ℕ) ^ k = 2 ^ (k + 1) := by ring
      rw [h2] at hq'
      exact hq'

/-- Claim C8: the engine is deterministic — two runs with the same size, the
same random source, the same variance schedule, and identically seeded
corners produce identical grids, cell for cell. -/
theorem engine_deterministic (size n : ℕ) (rnd : ℕ → ℚ → ℚ) (variance : ℕ → ℚ)
    (g0 g1 : ℕ × ℕ → ℚ) (hsize : size = 2 ^ n + 1) (hn : 0 < n)
    (hc00 : g0 (0, 0) = g1 (0, 0)) (hce0 : g0 (size - 1, 0) = g1 (size - 1, 0))
    (hc0e : g0 (0, size - 1) = g1 (0, size - 1))
    (hcee : g0 (size - 1, size - 1) = g1 (size - 1, size - 1))
    (x y : ℕ) (hx : x < size) (hy : y < size) :
    (diamond_square_no_wrap size rnd variance g0).grid (x, y) =
      (diamond_square_no_wrap size rnd variance g1).grid (x, y) := by
  subst hsize
  have hedge : 2 ^ n + 1 - 1 = 2 ^ n := by simp
  rw [hedge] at hce0 hc0e hcee
  rw [diamond_square_no_wrap, diamond_square_no_wrap, start_step_pow n hn]
  apply dsLoop_congr_pow n rnd variance (n - 1) (by omega) 0 ⟨g0, 0, [], []⟩
    ⟨g1, 0, [], []⟩ rfl ?_ (x, y)
    ⟨one_dvd _, one_dvd _, by simp; omega, by simp; omega⟩
  intro q hq
  obtain ⟨⟨a, ha⟩, ⟨b, hb⟩, h1, h2⟩ := hq
  have h2n : 2 * (2 : ℕ) ^ (n - 1) = 2 ^ n := by
    rw [← pow_succ']
    congr 1
    omega
  rw [h2n] at ha hb
  have hq1 : q.1 = 0 ∨ q.1 = 2 ^ n := by
    rcases Nat.eq_zero_or_pos a with h | h
    · subst h
      left
      rw [ha, Nat.mul_zero]
    · right
      have hge : 2 ^ n * 1 ≤ 2 ^ n * a := Nat.mul_le_mul_left _ h
      rw [Nat.mul_one] at hge
      omega
  have hq2 : q.2 = 0 ∨ q.2 = 2 ^ n := by
    rcases Nat.eq_zero_or_pos b with h | h
    · subst h
      left
      rw [hb, Nat.mul_zero]
    · right
      have hge : 2 ^ n * 1 ≤ 2 ^ n * b := Nat.mul_le_mul_left _ h
      rw [Nat.mul_one] at hge
      omega
  rcases hq1 with h | h <;> rcases hq2 with h' | h' <;>
    · have hqe : q = (_, _) := Prod.ext h h'
      rw [hqe]
      first
        | exact hc00
        | exact hce0
        | exact hc0e
        | exact hcee

/-- Claim C7: for a valid size the main loop terminates after exactly `n`
passes: the step size starts at `edge / 2 = 2 ^ (n - 1)` and takes exactly
the values `2 ^ (n - 1), ..., 2, 1`, the level counter is incremented once
per pass starting at 0, every executed pass has step at least 1 and level
below `n` (the loop exits once the halved step drops below 1, after the pass
with step 1, which carries level `n - 1`), and the whole run is the fold of
the per-level body over precisely that list of (step, level) pairs. -/
theorem loop_steps_and_levels (size n : ℕ) (rnd : ℕ → ℚ → ℚ)
    (variance : ℕ → ℚ) (st : DSState) (hsize : size = 2 ^ n + 1) (hn : 0 < n) :
    levelPairs ((size - 1) / 2) 0 =
        (List.range n).map (fun i => (2 ^ (n - 1 - i), i)) ∧
      (1, n - 1) ∈ levelPairs ((size - 1) / 2) 0 ∧
      (∀ q ∈ levelPairs ((size - 1) / 2) 0, 1 ≤ q.1 ∧ q.2 < n) ∧
      dsLoop size rnd variance ((size - 1) / 2) 0 st =
        ((List.range n).map fun i => ((2 ^ (n - 1 - i), i) : ℕ × ℕ)).foldl
          (fun st' q => doLevel size rnd variance q.1 q.2 st') st := by
  subst hsize
  rw [start_step_pow n hn]
  have hlp := levelPairs_pow (n - 1) 0
  have hrange : n - 1 + 1 = n := by omega
  rw [hrange] at hlp
  simp only [Nat.zero_add] at hlp
  refine ⟨hlp, ?_, ?_, ?_⟩
  · rw [hlp]
    apply List.mem_map.mpr
    refine ⟨n - 1, List.mem_range.mpr (by omega), ?_⟩
    have h0 : n - 1 - (n - 1) = 0 := by omega
    rw [h0, pow_zero]
  · intro q hq
    rw [hlp] at hq
    rcases List.mem_map.mp hq with ⟨i, hi, rfl⟩
    exact ⟨Nat.one_le_two_pow, List.mem_range.mp hi⟩
  · rw [dsLoop_eq_fold, hlp]

lemma engine_three (rnd : ℕ → ℚ → ℚ) (variance : ℕ → ℚ) (g0 : ℕ × ℕ → ℚ) :
    diamond_square_no_wrap 3 rnd variance g0 =
      doLevel 3 rnd variance 1 0 ⟨g0, 0, [], []⟩ := by
  rw [diamond_square_no_wrap]
  have h1 : (3 - 1) / 2 = 1 := by norm_num
  rw [h1, dsLoop_succ _ _ _ _ _ _ one_ne_zero]
  have h2 : 1 / 2 = 0 := by norm_num
  rw [h2, dsLoop_zero]

/-- Claim C6 (amended): running the engine on the 3 x 3 grid with corners
seeded to 0, 100, 100, 200 and both the random source and the variance
schedule returning 0 (so the perturbation vanishes) yields centre
`(1,1) = 100`, the mean of the four corners, while each edge midpoint equals
the mean of its three in-bounds neighbours — its two adjacent corners and the
freshly computed centre — so `(1,0) = (0 + 100 + 100) / 3 = 200/3`, not 50. -/
theorem size3_zero_noise_values :
    (diamond_square_no_wrap 3 (fun _ _ => 0) (fun _ => 0)
        (seededGrid 3 0 100 100 200)).grid (1, 1) = 100 ∧
      (diamond_square_no_wrap 3 (fun _ _ => 0) (fun _ => 0)
          (seededGrid 3 0 100 100 200)).grid (1, 0) = 200 / 3 ∧
      (diamond_square_no_wrap 3 (fun _ _ => 0) (fun _ => 0)
          (seededGrid 3 0 100 100 200)).grid (0, 1) = 200 / 3 ∧
      (diamond_square_no_wrap 3 (fun _ _ => 0) (fun _ => 0)
          (seededGrid 3 0 100 100 200)).grid (2, 1) = 400 / 3 ∧
      (diamond_square_no_wrap 3 (fun _ _ => 0) (fun _ => 0)
          (seededGrid 3 0 100 100 200)).grid (1, 2) = 400 / 3 := by
  rw [engine_three]
  have hsq : squarePoints 1 2 = [(1, 1)] := by decide
  have hdi : diamondPoints 1 2 = [(1, 0), (0, 1), (2, 1), (1, 2)] := by decide
  have h3 : (3 : ℕ) - 1 = 2 := by norm_num
  simp only [doLevel, h3, hsq, hdi, runPass_cons, runPass_nil, passStep, sqNbrs, diNbrs]
  norm_num +decide [seededGrid]

/-- Counterexample to claim C6 as stated: in the same scenario the centre
does equal 100, but the boundary midpoint `(1,0)` is `200/3`, not the
two-corner mean 50. -/
theorem size3_edge_midpoint_not_fifty :
    (diamond_square_no_wrap 3 (fun _ _ => 0) (fun _ => 0)
        (seededGrid 3 0 100 100 200)).grid (1, 1) = 100 ∧
      ¬ ((diamond_square_no_wrap 3 (fun _ _ => 0) (fun _ => 0)
          (seededGrid 3 0 100 100 200)).grid (1, 0) = 50) := by
  rw [engine_three]
  have hsq : squarePoints 1 2 = [(1, 1)] := by decide
  have hdi : diamondPoints 1 2 = [(1, 0), (0, 1), (2, 1), (1, 2)] := by decide
  have h3 : (3 : ℕ) - 1 = 2 := by norm_num
  simp only [doLevel, h3, hsq, hdi, runPass_cons, runPass_nil, passStep, sqNbrs, diNbrs]
  norm_num +decide [seededGrid]

/-- Counterexample to claim C6 as stated: on the size-3 grid the boundary
midpoint `(1,0)` — a non-corner point of the diamond pass at step 1 — has
three in-bounds neighbours, not two. -/
theorem boundary_midpoint_three_neighbors :
    (1, 0) ∈ diamondPoints 1 2 ∧ ((1, 0) : ℕ × ℕ).2 = 0 ∧
      diNbrs 3 1 (1, 0) = [(0, 0), (2, 0), (1, 1)] ∧
      (diNbrs 3 1 (1, 0)).length = 3 ∧ ¬ ((diNbrs 3 1 (1, 0)).length = 2) := by
  decide

/-- Counterexample to claim C9 as stated: at the admissible uniform sample
`u = 0` and the non-negative range `r = 0`, the random callback returns
`0 * 0 = 0`, which does not lie in the half-open interval `[0, 0)` — the
contract `random(r) ∈ [0, r)` is unsatisfiable for `r = 0`. -/
theorem main_random_zero_range :
    (0 : ℚ) ≤ 0 ∧ (0 : ℚ) < 1 ∧ (0 : ℚ) ≤ 0 ∧ mainRandom 0 0 = 0 ∧
      ¬ (mainRandom 0 0 < 0) := by
  refine ⟨le_refl 0, by norm_num, le_refl 0, ?_, ?_⟩
  · rw [mainRandom, mul_zero]
  · rw [mainRandom, mul_zero]
    exact lt_irrefl 0

/-- Claim C9 (amended): for every uniform sample `u ∈ [0, 1)` the random
callback of `main.cpp` returns `u * r ∈ [0, r)` for every positive range
`r`, and returns exactly 0 when the range is 0; the variance callback
returns the non-negative value `64 * 0.5 ^ level`, halving the bound at each
level, starting at 64. -/
theorem main_random_variance_contract (u r : ℚ) (L : ℕ) (hu0 : 0 ≤ u)
    (hu1 : u < 1) (hr : 0 < r) :
    (0 ≤ mainRandom u r ∧ mainRandom u r < r) ∧ mainRandom u 0 = 0 ∧
      mainVariance L = 64 * (1 / 2) ^ L ∧ 0 ≤ mainVariance L ∧
      mainVariance (L + 1) = mainVariance L / 2 ∧ mainVariance 0 = 64 := by
  refine ⟨⟨mul_nonneg hu0 (le_of_lt hr), ?_⟩, ?_, rfl, ?_, ?_, ?_⟩
  · exact mul_lt_of_lt_one_left hr hu1
  · rw [mainRandom, mul_zero]
  · rw [mainVariance]
    positivity
  · rw [mainVariance, mainVariance, pow_succ]
    ring
  · rw [mainVariance]
    norm_num

/-- Claim C10: the height samples of `main.cpp` are `uint8_t`, so a value
stored through the accessor is reduced modulo `2 ^ 8` — it wraps rather than
saturates — and consequently every pixel value printed after the PGM header
`P2 513 513 255` lies in `[0, 255]`, with exactly `513 * 513` values
emitted. -/
theorem uint8_wrap_and_pgm_output :
    (∀ v : ℤ, storeByte v < 256) ∧
      (∀ v : ℤ, storeByte (v + 256) = storeByte v) ∧
      storeByte 300 = 44 ∧ storeByte (-1) = 255 ∧
      pgmHeader 513 = "P2 513 513 255" ∧
      (∀ cell : ℕ × ℕ → ℤ,
        (pgmValues 513 fun p => storeByte (cell p)).length = 513 * 513) ∧
      (∀ cell : ℕ × ℕ → ℤ,
        ∀ w ∈ pgmValues 513 fun p => storeByte (cell p), w ≤ 255) := by
  have hlt : ∀ v : ℤ, storeByte v < 256 := by
    intro v
    rw [storeByte]
    have h1 : 0 ≤ v % 256 := Int.emod_nonneg v (by norm_num)
    have h2 : v % 256 < 256 := Int.emod_lt_of_pos v (by norm_num)
    omega
  refine ⟨hlt, ?_, by decide, by decide, rfl, ?_, ?_⟩
  · intro v
    rw [storeByte, storeByte]
    omega
  · intro cell
    simp only [pgmValues, List.length_flatMap, Function.comp_def, List.length_map,
      List.length_range, List.map_const']
    rw [List.sum_replicate, smul_eq_mul]
  · intro cell w hw
    simp only [pgmValues, List.mem_flatMap, List.mem_map, List.mem_range] at hw
    rcases hw with ⟨y, hy, x, hx, rfl⟩
    have := hlt (cell (x, y))
    omega

/-- Witness instantiating the C1 theorem: size 3, step 1, boundary midpoint
`(1,0)` of the seeded zero grid, zero random source and zero variance. -/
theorem diamond_pass_inbounds_mean_witness :
    (∃ c, 0 ≤ c ∧ c < 0 + (diamondPoints 1 (3 - 1)).length ∧
        (runPass (fun _ _ => (0 : ℚ)) 0 (diNbrs 3 1) (diamondPoints 1 (3 - 1))
            ⟨fun _ => 0, 0, [], []⟩).grid (1, 0) =
          ((diNbrs 3 1 (1, 0)).map (fun _ => (0 : ℚ))).sum /
              ((diNbrs 3 1 (1, 0)).length : ℚ) + (0 - 0 / 2)) ∧
      (∀ q ∈ diNbrs 3 1 (1, 0),
        (q.1 < 3 ∧ q.2 < 3) ∧
          q ∈ [((1 : ℕ) - 1, (0 : ℕ)), (1 + 1, 0), (1, 0 - 1), (1, 0 + 1)]) ∧
      (((1 : ℕ) = 0 ∨ (1 : ℕ) = 3 - 1 ∨ (0 : ℕ) = 0 ∨ (0 : ℕ) = 3 - 1) →
        (diNbrs 3 1 (1, 0)).length = 3) ∧
      ((1 : ℕ) ≠ 0 → (1 : ℕ) ≠ 3 - 1 → (0 : ℕ) ≠ 0 → (0 : ℕ) ≠ 3 - 1 →
        diNbrs 3 1 (1, 0) = [(1 - 1, 0), (1 + 1, 0), (1, 0 - 1), (1, 0 + 1)]) :=
  diamond_pass_inbounds_mean 3 1 0 1 (fun _ _ => 0) 0 ⟨fun _ => 0, 0, [], []⟩ (1, 0)
    (by norm_num) (by norm_num) (by norm_num) (by decide)

/-- Witness instantiating the C2 theorem: on the seeded 3 x 3 grid the corner
`(2,0)` keeps its seed after the run. -/
theorem corners_never_written_witness :
    (diamond_square_no_wrap 3 (fun _ _ => 0) (fun _ => 0)
        (seededGrid 3 0 100 100 200)).grid (2, 0) =
      seededGrid 3 0 100 100 200 (2, 0) :=
  corners_never_written 3 1 (fun _ _ => 0) (fun _ => 0) (seededGrid 3 0 100 100 200)
    (by norm_num) (by norm_num) (2, 0) (by norm_num)

/-- Witness instantiating the C3 theorem: the centre `(1,1)` of the 3 x 3
grid is a corner or was written — and it is not a corner, so it was
written. -/
theorem every_cell_assigned_witness :
    (((1 : ℕ) = 0 ∨ (1 : ℕ) = 3 - 1) ∧ ((1 : ℕ) = 0 ∨ (1 : ℕ) = 3 - 1)) ∨
      ((1 : ℕ), (1 : ℕ)) ∈ (diamond_square_no_wrap 3 (fun _ _ => 0) (fun _ => 0)
        (seededGrid 3 0 100 100 200)).wrs :=
  every_cell_assigned 3 1 (fun _ _ => 0) (fun _ => 0) (seededGrid 3 0 100 100 200)
    (by norm_num) (by norm_num) 1 1 (by norm_num) (by norm_num)

/-- Witness instantiating the C4 theorem at size 3, step 1, level 0, square
point `(1,1)` and diamond point `(1,0)`, with zero random source and zero
variance. -/
theorem perturbation_construction_witness :
    (∃ _c : ℕ, (runPass (fun _ _ => (0 : ℚ)) 0 (sqNbrs 1) (squarePoints 1 (3 - 1))
          ⟨fun _ => 0, 0, [], []⟩).grid (1, 1) =
        ((sqNbrs 1 (1, 1)).map (fun _ => (0 : ℚ))).sum /
            ((sqNbrs 1 (1, 1)).length : ℚ) + (0 - 0 / 2) ∧
        -(0 : ℚ) ≤ 0 - 0 / 2 ∧ (0 : ℚ) - 0 / 2 ≤ 0) ∧
      (∃ _c : ℕ, (runPass (fun _ _ => (0 : ℚ)) 0 (diNbrs 3 1) (diamondPoints 1 (3 - 1))
            ⟨fun _ => 0, 0, [], []⟩).grid (1, 0) =
          ((diNbrs 3 1 (1, 0)).map (fun _ => (0 : ℚ))).sum /
              ((diNbrs 3 1 (1, 0)).length : ℚ) + (0 - 0 / 2) ∧
          -(0 : ℚ) ≤ 0 - 0 / 2 ∧ (0 : ℚ) - 0 / 2 ≤ 0) ∧
      (sqNbrs 1 (1, 1)).length = 4 :=
  perturbation_construction 3 1 0 (fun _ _ => 0) (fun _ => 0)
    ⟨fun _ => 0, 0, [], []⟩ ⟨fun _ => 0, 0, [], []⟩ (1, 1) (1, 0)
    (by decide) (by decide) (fun c => ⟨le_refl 0, le_refl 0⟩)

/-- Witness instantiating the C5 theorem: the centre `(1,1)` is written
during the size-3 run, and indeed lies inside the grid. -/
theorem accessor_calls_in_bounds_witness :
    ((1 : ℕ), (1 : ℕ)).1 < 3 ∧ ((1 : ℕ), (1 : ℕ)).2 < 3 :=
  accessor_calls_in_bounds 3 (fun _ _ => 0) (fun _ => 0) (fun _ => 0) (1, 1)
    (Or.inr (by rw [engine_three]; decide))

/-- Witness instantiating the C7 theorem at size 3: one single pass, with
step 1 and level 0. -/
theorem loop_steps_and_levels_witness :
    levelPairs ((3 - 1) / 2) 0 =
        (List.range 1).map (fun i => (2 ^ (1 - 1 - i), i)) ∧
      (1, 1 - 1) ∈ levelPairs ((3 - 1) / 2) 0 ∧
      (∀ q ∈ levelPairs ((3 - 1) / 2) 0, 1 ≤ q.1 ∧ q.2 < 1) ∧
      dsLoop 3 (fun _ _ => 0) (fun _ => 0) ((3 - 1) / 2) 0 ⟨fun _ => 0, 0, [], []⟩ =
        ((List.range 1).map fun i => ((2 ^ (1 - 1 - i), i) : ℕ × ℕ)).foldl
          (fun st' q => doLevel 3 (fun _ _ => 0) (fun _ => 0) q.1 q.2 st')
          ⟨fun _ => 0, 0, [], []⟩ :=
  loop_steps_and_levels 3 1 (fun _ _ => 0) (fun _ => 0) ⟨fun _ => 0, 0, [], []⟩
    (by norm_num) (by norm_num)

/-- Witness instantiating the C8 theorem: two size-3 runs from grids that
agree on the four corners produce the same centre value. -/
theorem engine_deterministic_witness :
    (diamond_square_no_wrap 3 (fun _ _ => 0) (fun _ => 0)
        (seededGrid 3 0 100 100 200)).grid (1, 1) =
      (diamond_square_no_wrap 3 (fun _ _ => 0) (fun _ => 0)
        (fun p => seededGrid 3 0 100 100 200 p + (if p = (1, 1) then 7 else 0))).grid
        (1, 1) :=
  engine_deterministic 3 1 (fun _ _ => 0) (fun _ => 0)
    (seededGrid 3 0 100 100 200)
    (fun p => seededGrid 3 0 100 100 200 p + (if p = (1, 1) then 7 else 0))
    (by norm_num) (by norm_num) (by norm_num [seededGrid]) (by norm_num [seededGrid])
    (by norm_num [seededGrid]) (by norm_num [seededGrid]) 1 1 (by norm_num) (by norm_num)

/-- Witness instantiating the C9 theorem at the sample `1/2`, range 2 and
level 0. -/
theorem main_random_variance_contract_witness :
    ((0 : ℚ) ≤ mainRandom (1 / 2) 2 ∧ mainRandom (1 / 2) 2 < 2) ∧
      mainRandom (1 / 2) 0 = 0 ∧
      mainVariance 0 = 64 * (1 / 2) ^ (0 : ℕ) ∧ 0 ≤ mainVariance 0 ∧
      mainVariance (0 + 1) = mainVariance 0 / 2 ∧ mainVariance 0 = 64 :=
  main_random_variance_contract (1 / 2) 2 0 (by norm_num) (by norm_num) (by norm_num)

/-- Witness instantiating the C10 theorem: the constant map at 5 yields
`513 * 513` in-range pixel values, and storing 300 wraps. -/
theorem uint8_wrap_and_pgm_output_witness :
    storeByte 300 < 256 ∧ storeByte (300 + 256) = storeByte 300 ∧
      (pgmValues 513 fun p => storeByte ((fun _ => (300 : ℤ)) p)).length = 513 * 513 :=
  ⟨uint8_wrap_and_pgm_output.1 300, uint8_wrap_and_pgm_output.2.1 300,
    uint8_wrap_and_pgm_output.2.2.2.2.2.1 (fun _ => 300)⟩
